import Mathlib

/-!
Verification of the batch-execution core (`blockchainetl/executors/batch_work_executor.py`)
and the action mapper (`eosetl/mappers/action_mapper.py`) of the eos-etl repository,
against its natural-language specification.

The Python code is shallowly embedded: the mutable fields of `BatchWorkExecutor`
(`batch_size`, the progress counter accumulated by `ProgressLogger.track`, and the
debugging `counter`) become an explicit state record threaded through the functions;
the caller-supplied `work_handler`, which either returns normally or raises, becomes a
function into an explicit outcome type; a raised exception is classified by whether its
type belongs to `retry_exceptions` (the membership test performed by the
`except self.retry_exceptions` clause).
-/

/-- Outcome of one invocation of the caller-supplied `work_handler` on a batch:
either it returns normally, or it raises an exception whose type either belongs to
`retry_exceptions` (`transient := true`) or does not (`transient := false`). -/
inductive HRes where
  | ok : HRes
  | exn (transient : Bool) : HRes
deriving DecidableEq, Repr

/-- The mutable fields of `BatchWorkExecutor` relevant to the embedded code:
`batch_size` (read by the dynamic batcher, written by the failure path of
`_fail_safe_execute`), the total count accumulated by `ProgressLogger.track`,
and the debugging field `counter` (incremented on entry to `_fail_safe_execute`,
decremented after success or on a recognized-transient exception). -/
structure ExecState where
  batch_size : ℕ
  progress : ℕ
  counter : ℤ
deriving DecidableEq, Repr

/-- Bit length with explicit fuel (structural recursion so that the kernel can
evaluate it); `bitlenAux f n` is the number of binary digits of `n` whenever `n ≤ f`. -/
def bitlenAux : ℕ → ℕ → ℕ
  | 0, _ => 0
  | _ + 1, 0 => 0
  | f + 1, n + 1 => bitlenAux f ((n + 1) / 2) + 1

/-- Number of binary digits of `n` (`0` for `n = 0`). -/
def bitlen (n : ℕ) : ℕ := bitlenAux n n

/-- Models the Python expression `int(batch_size / 2)` on line 68 of `batch_work_executor.py`.
In Python, `/` on integers is true division producing an IEEE-754 double — the
representable double nearest to the real number `s / 2`, ties going to the even
mantissa — and `int` truncates it toward zero.  For `s` of bit length `L ≤ 53`,
`s / 2` is exactly representable and truncation gives `⌊s / 2⌋`.  For `L ≥ 54` the
double ulp at `s / 2` is `2 ^ (L - 54)`, so the double is
`m * 2 ^ (shift - 1)` with `shift = L - 53` and `m` the round-half-to-even of
`s / 2 ^ shift`; that value is an integer, so truncation returns it unchanged.
(Faithful for `s` below the double overflow threshold `2 ^ 1025`; beyond it Python
raises `OverflowError`.) -/
def pyHalfInt (s : ℕ) : ℕ :=
  if bitlen s ≤ 53 then s / 2
  else
    let shift := bitlen s - 53
    let q := s / 2 ^ shift
    let r := s % 2 ^ shift
    let half := 2 ^ (shift - 1)
    let m := if r < half then q else if half < r then q + 1 else if q % 2 = 0 then q else q + 1
    m * 2 ^ (shift - 1)

/-- Lines 64–70 of `_fail_safe_execute`: the snapshot `batch_size = self.batch_size`
and the conditional shrink.  `self.batch_size` is reassigned only when the snapshot
equals `len(batch)` and exceeds `1`; exponential mode assigns `int(batch_size / 2)`,
linear mode `batch_size - 1`. -/
def shrinkSize (exponential_backoff : Bool) (bs len : ℕ) : ℕ :=
  if bs = len ∧ 1 < bs then
    if exponential_backoff then pyHalfInt bs else bs - 1
  else bs

/-- Lines 72–73 of `_fail_safe_execute`: `for item in batch: work_handler([item])`,
run inside the `except` block, hence not protected by it — the first per-item
exception aborts the loop and propagates.  Returns the list of handler invocations
made (each a singleton batch) and the propagated exception, if any. -/
def perItemPass (h : List α → HRes) : List α → List (List α) × Option Bool
  | [] => ([], none)
  | item :: rest =>
    match h [item] with
    | .ok =>
      let t := perItemPass h rest
      ([item] :: t.1, t.2)
    | .exn tr => ([[item]], some tr)

/-- The body of `BatchWorkExecutor._fail_safe_execute` (lines 53–74).  Returns the
state after the call, the list of `work_handler` invocations made (first the whole
batch, then any per-item singleton retries), and the exception propagating out of
the call, if any (`some transient?`).  `self.progress_logger.track(len(batch))` sits
after the `try`/`except` statement, so it runs only when no exception escapes; the
`self.counter -= 1` on line 59 is skipped when `work_handler(batch)` raises, and the
one on line 61 runs only for a recognized-transient exception. -/
def failSafeExecute (exponential_backoff : Bool) (h : List α → HRes)
    (σ : ExecState) (batch : List α) : ExecState × List (List α) × Option Bool :=
  let σ₁ : ExecState := { σ with counter := σ.counter + 1 }
  match h batch with
  | .ok =>
    let σ₂ : ExecState := { σ₁ with counter := σ₁.counter - 1 }
    ({ σ₂ with progress := σ₂.progress + batch.length }, [batch], none)
  | .exn tr =>
    if tr then
      let σ₂ : ExecState := { σ₁ with counter := σ₁.counter - 1 }
      let σ₃ : ExecState :=
        { σ₂ with batch_size := shrinkSize exponential_backoff σ₂.batch_size batch.length }
      let p := perItemPass h batch
      match p.2 with
      | none => ({ σ₃ with progress := σ₃.progress + batch.length }, batch :: p.1, none)
      | some tr' => (σ₃, batch :: p.1, some tr')
    else
      (σ₁, [batch], some false)

/-- Modelled from the spec: `dynamic_batch_iterator` (`blockchainetl/utils.py`, not
under `src/`) and the `FailSafeExecutor`/`BoundedExecutor` pair are embedded as a
sequential loop — before each batch the current `batch_size` is read fresh and that
many items are taken (§4.1: a batch is smaller than the target only when the source
is exhausted); each batch is processed by `_fail_safe_execute`; once a processing
unit propagates an exception, the fail-safe wrapper latches it, accepts no further
submissions, and re-raises it at the next call (§4.3, §7).  The fuel argument bounds
the recursion; `items.length` is sufficient fuel whenever `batch_size ≥ 1`. -/
def executeAux (exponential_backoff : Bool) (h : List α → HRes) :
    ℕ → ExecState → List α → ExecState × List (List α) × Option Bool
  | _, σ, [] => (σ, [], none)
  | 0, σ, _ :: _ => (σ, [], none)
  | fuel + 1, σ, x :: xs =>
    let batch := (x :: xs).take σ.batch_size
    let rest := (x :: xs).drop σ.batch_size
    let r := failSafeExecute exponential_backoff h σ batch
    match r.2.2 with
    | some tr => (r.1, r.2.1, some tr)
    | none =>
      let r' := executeAux exponential_backoff h fuel r.1 rest
      (r'.1, r.2.1 ++ r'.2.1, r'.2.2)

/-- Modelled from the spec: `BatchWorkExecutor.execute` followed by `shutdown`, run
over a finite item list with one worker (the claims proved below are independent of
the worker schedule).  Starts from a fresh state with the given starting batch size,
zero accumulated progress and zero counter; returns the final state, the full trace
of handler invocations, and the fatal exception surfaced by `shutdown`, if any. -/
def execute (exponential_backoff : Bool) (h : List α → HRes) (starting_batch_size : ℕ)
    (items : List α) : ExecState × List (List α) × Option Bool :=
  executeAux exponential_backoff h items.length
    ⟨starting_batch_size, 0, 0⟩ items

theorem bitlenAux_zero (f : ℕ) : bitlenAux f 0 = 0 := by
  cases f <;> rfl

theorem bitlenAux_lt : ∀ f n, n ≤ f → n < 2 ^ bitlenAux f n := by
  intro f
  induction f with
  | zero =>
    intro n hn
    have hz : n = 0 := by omega
    subst hz
    simp [bitlenAux]
  | succ f ih =>
    intro n hn
    rcases Nat.eq_zero_or_pos n with rfl | hpos
    · simp [bitlenAux_zero]
    · obtain ⟨m, rfl⟩ : ∃ m, n = m + 1 := ⟨n - 1, by omega⟩
      have hdiv : (m + 1) / 2 ≤ f := by omega
      have hlt := ih ((m + 1) / 2) hdiv
      have h2 : bitlenAux (f + 1) (m + 1) = bitlenAux f ((m + 1) / 2) + 1 := rfl
      rw [h2, pow_succ]
      omega

theorem bitlenAux_le : ∀ f n, n ≤ f → 0 < n → 2 ^ (bitlenAux f n - 1) ≤ n := by
  intro f
  induction f with
  | zero => intro n hn hpos; omega
  | succ f ih =>
    intro n hn hpos
    obtain ⟨m, rfl⟩ : ∃ m, n = m + 1 := ⟨n - 1, by omega⟩
    have h2 : bitlenAux (f + 1) (m + 1) = bitlenAux f ((m + 1) / 2) + 1 := rfl
    rw [h2]
    by_cases hz : (m + 1) / 2 = 0
    · have hm : m = 0 := by omega
      subst hm
      simp [hz, bitlenAux_zero]
    · have hdiv : (m + 1) / 2 ≤ f := by omega
      have hpos' : 0 < (m + 1) / 2 := Nat.pos_of_ne_zero hz
      have hle := ih ((m + 1) / 2) hdiv hpos'
      have hlt := bitlenAux_lt f ((m + 1) / 2) hdiv
      have hb1 : 1 ≤ bitlenAux f ((m + 1) / 2) := by
        by_contra hc
        push_neg at hc
        have : bitlenAux f ((m + 1) / 2) = 0 := by omega
        rw [this] at hlt
        simp at hlt
        omega
      have hpow : 2 ^ bitlenAux f ((m + 1) / 2) = 2 ^ (bitlenAux f ((m + 1) / 2) - 1) * 2 := by
        rw [← pow_succ]
        congr 1
        omega
      simp only [Nat.add_sub_cancel]
      rw [hpow]
      omega

theorem bitlen_lt (n : ℕ) : n < 2 ^ bitlen n := bitlenAux_lt n n le_rfl

theorem bitlen_pos_le {n : ℕ} (h : 0 < n) : 2 ^ (bitlen n - 1) ≤ n := bitlenAux_le n n le_rfl h

theorem bitlen_le_iff {n k : ℕ} : bitlen n ≤ k ↔ n < 2 ^ k := by
  constructor
  · intro h
    exact lt_of_lt_of_le (bitlen_lt n) (Nat.pow_le_pow_right (by norm_num) h)
  · intro h
    rcases Nat.eq_zero_or_pos n with rfl | hpos
    · simp [bitlen, bitlenAux]
    · by_contra hc
      push_neg at hc
      have h1 := bitlen_pos_le hpos
      have h2 : 2 ^ k ≤ 2 ^ (bitlen n - 1) := Nat.pow_le_pow_right (by norm_num) (by omega)
      omega

theorem pyHalfInt_eq_half {s : ℕ} (h1 : s ≤ 2 ^ 53) : pyHalfInt s = s / 2 := by
  rcases eq_or_lt_of_le h1 with rfl | hlt
  · decide
  · have hb : bitlen s ≤ 53 := bitlen_le_iff.mpr hlt
    simp [pyHalfInt, hb]

theorem pyHalfInt_lt {s : ℕ} (h : 2 ≤ s) : pyHalfInt s < s := by
  by_cases hb : bitlen s ≤ 53
  · simp only [pyHalfInt, if_pos hb]
    exact Nat.div_lt_self (by omega) (by norm_num)
  · push_neg at hb
    rw [pyHalfInt, if_neg (by omega)]
    simp only []
    set L := bitlen s with hL
    set shift := L - 53 with hshift
    have hshift1 : 1 ≤ shift := by omega
    have hsL : 2 ^ (L - 1) ≤ s := bitlen_pos_le (by omega)
    have hq52 : 2 ^ 52 ≤ s / 2 ^ shift := by
      have hmono : 2 ^ (L - 1) / 2 ^ shift ≤ s / 2 ^ shift := Nat.div_le_div_right hsL
      have heq : 2 ^ (L - 1) / 2 ^ shift = 2 ^ 52 := by
        rw [Nat.pow_div (by omega) (by norm_num)]
        congr 1
        omega
      omega
    set q := s / 2 ^ shift with hqdef
    set r := s % 2 ^ shift with hrdef
    have hq2 : 2 ≤ q := le_trans (by norm_num) hq52
    have hm : (if r < 2 ^ (shift - 1) then q else if 2 ^ (shift - 1) < r then q + 1
        else if q % 2 = 0 then q else q + 1) ≤ q + 1 := by
      split_ifs <;> omega
    have hsq : q * 2 ^ shift ≤ s := Nat.div_mul_le_self s (2 ^ shift)
    have hpow : 2 ^ shift = 2 ^ (shift - 1) * 2 := by
      rw [← pow_succ]
      congr 1
      omega
    have ht : 1 ≤ 2 ^ (shift - 1) := Nat.one_le_two_pow
    calc (if r < 2 ^ (shift - 1) then q else if 2 ^ (shift - 1) < r then q + 1
        else if q % 2 = 0 then q else q + 1) * 2 ^ (shift - 1)
        ≤ (q + 1) * 2 ^ (shift - 1) := Nat.mul_le_mul_right _ hm
      _ < q * 2 ^ shift := by rw [hpow]; nlinarith
      _ ≤ s := hsq

theorem pyHalfInt_pos {s : ℕ} (h : 2 ≤ s) : 1 ≤ pyHalfInt s := by
  by_cases hb : bitlen s ≤ 53
  · simp only [pyHalfInt, if_pos hb]
    omega
  · push_neg at hb
    rw [pyHalfInt, if_neg (by omega)]
    simp only []
    have hsL : 2 ^ (bitlen s - 1) ≤ s := bitlen_pos_le (by omega)
    have hq52 : 2 ^ 52 ≤ s / 2 ^ (bitlen s - 53) := by
      have hmono : 2 ^ (bitlen s - 1) / 2 ^ (bitlen s - 53) ≤ s / 2 ^ (bitlen s - 53) :=
        Nat.div_le_div_right hsL
      have heq : 2 ^ (bitlen s - 1) / 2 ^ (bitlen s - 53) = 2 ^ 52 := by
        rw [Nat.pow_div (by omega) (by norm_num)]
        congr 1
        omega
      omega
    have ht : 1 ≤ 2 ^ (bitlen s - 53 - 1) := Nat.one_le_two_pow
    have hm : 1 ≤ (if s % 2 ^ (bitlen s - 53) < 2 ^ (bitlen s - 53 - 1) then s / 2 ^ (bitlen s - 53)
        else if 2 ^ (bitlen s - 53 - 1) < s % 2 ^ (bitlen s - 53) then s / 2 ^ (bitlen s - 53) + 1
        else if (s / 2 ^ (bitlen s - 53)) % 2 = 0 then s / 2 ^ (bitlen s - 53)
        else s / 2 ^ (bitlen s - 53) + 1) := by
      split_ifs <;> omega
    calc 1 = 1 * 1 := by norm_num
      _ ≤ (if s % 2 ^ (bitlen s - 53) < 2 ^ (bitlen s - 53 - 1) then s / 2 ^ (bitlen s - 53)
        else if 2 ^ (bitlen s - 53 - 1) < s % 2 ^ (bitlen s - 53) then s / 2 ^ (bitlen s - 53) + 1
        else if (s / 2 ^ (bitlen s - 53)) % 2 = 0 then s / 2 ^ (bitlen s - 53)
        else s / 2 ^ (bitlen s - 53) + 1) * 2 ^ (bitlen s - 53 - 1) := Nat.mul_le_mul hm ht

theorem shrinkSize_pos {e : Bool} {bs len : ℕ} (h : 1 ≤ bs) : 1 ≤ shrinkSize e bs len := by
  unfold shrinkSize
  split_ifs with h1 h2
  · exact pyHalfInt_pos (by omega)
  · omega
  · exact h

theorem shrinkSize_le {e : Bool} {bs len : ℕ} : shrinkSize e bs len ≤ bs := by
  unfold shrinkSize
  split_ifs with h1 h2
  · exact le_of_lt (pyHalfInt_lt (by omega))
  · omega
  · exact le_rfl

theorem shrinkSize_lt {e : Bool} {bs len : ℕ} (h1 : bs = len) (h2 : 1 < bs) :
    shrinkSize e bs len < bs := by
  unfold shrinkSize
  rw [if_pos ⟨h1, h2⟩]
  split_ifs
  · exact pyHalfInt_lt (by omega)
  · omega

theorem shrinkSize_eq_of_not {e : Bool} {bs len : ℕ} (h : ¬(bs = len ∧ 1 < bs)) :
    shrinkSize e bs len = bs := by
  unfold shrinkSize
  rw [if_neg h]

theorem perItemPass_all_ok {h : List α → HRes} :
    ∀ {b : List α}, (∀ x ∈ b, h [x] = HRes.ok) →
    perItemPass h b = (b.map (fun x => [x]), none) := by
  intro b
  induction b with
  | nil => intro _; rfl
  | cons x xs ih =>
    intro hall
    have hx : h [x] = HRes.ok := hall x (by simp)
    have hxs := ih (fun y hy => hall y (by simp [hy]))
    simp [perItemPass, hx, hxs]

theorem perItemPass_first_fail {h : List α → HRes} :
    ∀ (pre : List α) (bad : α) (post : List α) (tr : Bool),
    (∀ x ∈ pre, h [x] = HRes.ok) → h [bad] = HRes.exn tr →
    perItemPass h (pre ++ bad :: post) = (pre.map (fun x => [x]) ++ [[bad]], some tr) := by
  intro pre
  induction pre with
  | nil =>
    intro bad post tr _ hbad
    simp [perItemPass, hbad]
  | cons x xs ih =>
    intro bad post tr hall hbad
    have hx : h [x] = HRes.ok := hall x (by simp)
    have := ih bad post tr (fun y hy => hall y (by simp [hy])) hbad
    simp [perItemPass, hx, this]

theorem fse_ok {e : Bool} {h : List α → HRes} {σ : ExecState} {b : List α}
    (hb : h b = HRes.ok) :
    failSafeExecute e h σ b =
      ({ σ with progress := σ.progress + b.length }, [b], none) := by
  cases σ with
  | mk bs pr ct =>
    simp only [failSafeExecute, hb]
    simp [Prod.ext_iff, ExecState.mk.injEq]

theorem fse_fatal {e : Bool} {h : List α → HRes} {σ : ExecState} {b : List α}
    (hb : h b = HRes.exn false) :
    failSafeExecute e h σ b = ({ σ with counter := σ.counter + 1 }, [b], some false) := by
  simp [failSafeExecute, hb]

theorem fse_transient_calls {e : Bool} {h : List α → HRes} {σ : ExecState} {b : List α}
    (hb : h b = HRes.exn true) :
    (failSafeExecute e h σ b).2.1 = b :: (perItemPass h b).1 := by
  simp only [failSafeExecute, hb]
  cases hp : (perItemPass h b).2 <;> simp [hp]

theorem fse_transient_err {e : Bool} {h : List α → HRes} {σ : ExecState} {b : List α}
    (hb : h b = HRes.exn true) :
    (failSafeExecute e h σ b).2.2 = (perItemPass h b).2 := by
  simp only [failSafeExecute, hb]
  cases hp : (perItemPass h b).2 <;> simp [hp]

theorem fse_transient_bs {e : Bool} {h : List α → HRes} {σ : ExecState} {b : List α}
    (hb : h b = HRes.exn true) :
    (failSafeExecute e h σ b).1.batch_size = shrinkSize e σ.batch_size b.length := by
  simp only [failSafeExecute, hb]
  cases hp : (perItemPass h b).2 <;> simp [hp]

theorem fse_transient_progress {e : Bool} {h : List α → HRes} {σ : ExecState} {b : List α}
    (hb : h b = HRes.exn true) :
    (failSafeExecute e h σ b).1.progress =
      if (perItemPass h b).2 = none then σ.progress + b.length else σ.progress := by
  simp only [failSafeExecute, hb]
  cases hp : (perItemPass h b).2 <;> simp [hp]

theorem fse_bs_le {e : Bool} {h : List α → HRes} {σ : ExecState} {b : List α} :
    (failSafeExecute e h σ b).1.batch_size ≤ σ.batch_size := by
  cases hb : h b with
  | ok => simp [fse_ok hb]
  | exn tr =>
    cases tr
    · simp [fse_fatal hb]
    · rw [fse_transient_bs hb]
      exact shrinkSize_le

theorem fse_bs_pos {e : Bool} {h : List α → HRes} {σ : ExecState} {b : List α}
    (hσ : 1 ≤ σ.batch_size) : 1 ≤ (failSafeExecute e h σ b).1.batch_size := by
  cases hb : h b with
  | ok => simp [fse_ok hb]; omega
  | exn tr =>
    cases tr
    · simp [fse_fatal hb]; omega
    · rw [fse_transient_bs hb]
      exact shrinkSize_pos hσ

theorem executeAux_ok_spec (e : Bool) :
    ∀ (fuel : ℕ) (σ : ExecState) (items : List α),
    items.length ≤ fuel → 1 ≤ σ.batch_size →
    (executeAux e (fun _ => HRes.ok) fuel σ items).2.1.flatten = items ∧
    (executeAux e (fun _ => HRes.ok) fuel σ items).1.progress = σ.progress + items.length ∧
    (executeAux e (fun _ => HRes.ok) fuel σ items).2.2 = none ∧
    (executeAux e (fun _ => HRes.ok) fuel σ items).1.batch_size = σ.batch_size := by
  intro fuel
  induction fuel with
  | zero =>
    intro σ items hlen _
    have : items = [] := by
      cases items with
      | nil => rfl
      | cons x xs => simp at hlen
    subst this
    simp [executeAux]
  | succ fuel ih =>
    intro σ items hlen hbs
    cases items with
    | nil => simp [executeAux]
    | cons x xs =>
      have hfse := fse_ok (e := e) (σ := σ) (b := (x :: xs).take σ.batch_size)
        (h := fun _ => HRes.ok) rfl
      have hrest : ((x :: xs).drop σ.batch_size).length ≤ fuel := by
        simp only [List.length_drop]
        simp only [List.length_cons] at hlen ⊢
        omega
      have hIH := ih ({ σ with progress := σ.progress + ((x :: xs).take σ.batch_size).length })
        ((x :: xs).drop σ.batch_size) hrest (by simpa using hbs)
      simp only [executeAux, hfse]
      refine ⟨?_, ?_, ?_, ?_⟩
      · simp only [List.flatten_append, List.flatten_cons, List.flatten_nil, List.append_nil,
          List.singleton_append]
        rw [hIH.1, List.take_append_drop]
      · rw [hIH.2.1]
        simp only [List.length_take, List.length_drop, List.length_cons]
        omega
      · exact hIH.2.2.1
      · exact hIH.2.2.2

theorem executeAux_bs_bounds (e : Bool) (h : List α → HRes) :
    ∀ (fuel : ℕ) (σ : ExecState) (items : List α), 1 ≤ σ.batch_size →
    1 ≤ (executeAux e h fuel σ items).1.batch_size ∧
    (executeAux e h fuel σ items).1.batch_size ≤ σ.batch_size := by
  intro fuel
  induction fuel with
  | zero =>
    intro σ items hbs
    cases items <;> simp [executeAux] <;> omega
  | succ fuel ih =>
    intro σ items hbs
    cases items with
    | nil => simp [executeAux]; omega
    | cons x xs =>
      simp only [executeAux]
      cases hp : (failSafeExecute e h σ ((x :: xs).take σ.batch_size)).2.2 with
      | some tr =>
        exact ⟨fse_bs_pos hbs, fse_bs_le⟩
      | none =>
        have h1 : 1 ≤ (failSafeExecute e h σ ((x :: xs).take σ.batch_size)).1.batch_size :=
          fse_bs_pos hbs
        have h2 := fse_bs_le (e := e) (h := h) (σ := σ) (b := (x :: xs).take σ.batch_size)
        have hIH := ih (failSafeExecute e h σ ((x :: xs).take σ.batch_size)).1
          ((x :: xs).drop σ.batch_size) h1
        exact ⟨hIH.1, le_trans hIH.2 h2⟩

/-- C1: for every positive starting batch size and every finite item sequence, `execute`
with an always-succeeding handler followed by `shutdown` invokes the handler on batches
that partition the items in source order (the invocation trace flattens back to the item
list, so every item is processed exactly once), advances total progress to exactly the
number of items, and surfaces no error; in particular, with starting batch size 4 and 10
items the batch sizes are [4, 4, 2] and the final progress value is 10. -/
theorem execute_always_ok_partitions_and_counts {α : Type} (B : ℕ) (items : List α)
    (hB : 0 < B) :
    ((execute true (fun _ => HRes.ok) B items).2.1.flatten = items ∧
     (execute true (fun _ => HRes.ok) B items).1.progress = items.length ∧
     (execute true (fun _ => HRes.ok) B items).2.2 = none) ∧
    ((execute true (fun _ => HRes.ok) 4 (List.range 10)).2.1.map List.length = [4, 4, 2] ∧
     (execute true (fun _ => HRes.ok) 4 (List.range 10)).1.progress = 10) := by
  constructor
  · have hs := executeAux_ok_spec (α := α) true items.length ⟨B, 0, 0⟩ items le_rfl
      (by simpa using hB)
    exact ⟨hs.1, by simpa using hs.2.1, hs.2.2.1⟩
  · exact ⟨by decide, by decide⟩

/-- Witness for C1 at starting batch size 3 and items 0..6. -/
theorem execute_always_ok_partitions_and_counts_witness :
    (execute true (fun _ => HRes.ok) 3 (List.range 7)).2.1.flatten = List.range 7 ∧
    (execute true (fun _ => HRes.ok) 3 (List.range 7)).1.progress = 7 :=
  ⟨(execute_always_ok_partitions_and_counts 3 (List.range 7) (by decide)).1.1,
   (execute_always_ok_partitions_and_counts 3 (List.range 7) (by decide)).1.2.1⟩

/-- C2 counterexample: a handler that raises a recognized transient error on the batch
[0, 1] and an unrecognized error on every singleton retry.  The per-item pass raises, the
exception propagates out of `_fail_safe_execute`, yet tracked progress is still 0: the
`track(len(batch))` call on line 74 sits after the `try`/`except` statement and is never
reached, refuting the claim that progress is advanced before the exception propagates. -/
theorem track_before_propagation_cex :
    (failSafeExecute true (fun b => if b.length ≤ 1 then HRes.exn false else HRes.exn true)
        ⟨2, 0, 0⟩ ([0, 1] : List ℕ)).2.2 = some false ∧
    (failSafeExecute true (fun b => if b.length ≤ 1 then HRes.exn false else HRes.exn true)
        ⟨2, 0, 0⟩ ([0, 1] : List ℕ)).1.progress = 0 := by
  decide

/-- C2 (amended): `track(len(batch))` runs exactly when no exception propagates out of the
processing unit — when the unit completes, progress is advanced by the full batch length;
when the per-item retry raises, the exception propagates with progress NOT advanced for
that batch. -/
theorem track_skipped_on_per_item_failure (e : Bool) (h : List ℕ → HRes) (σ : ExecState)
    (b : List ℕ) :
    ((failSafeExecute e h σ b).2.2 = none →
      (failSafeExecute e h σ b).1.progress = σ.progress + b.length) ∧
    ((failSafeExecute e h σ b).2.2 ≠ none →
      (failSafeExecute e h σ b).1.progress = σ.progress) := by
  cases hb : h b with
  | ok =>
    rw [fse_ok hb]
    exact ⟨fun _ => rfl, fun hne => absurd rfl hne⟩
  | exn tr =>
    cases tr
    · rw [fse_fatal hb]
      exact ⟨fun hc => by simp at hc, fun _ => rfl⟩
    · constructor
      · intro hnone
        rw [fse_transient_err hb] at hnone
        rw [fse_transient_progress hb, if_pos hnone]
      · intro hne
        rw [fse_transient_err hb] at hne
        rw [fse_transient_progress hb, if_neg hne]

/-- Witness for C2 (amended): an always-succeeding handler on a 3-item batch advances
progress by 3. -/
theorem track_skipped_on_per_item_failure_witness :
    (failSafeExecute true (fun _ => HRes.ok) ⟨5, 0, 0⟩ ([0, 1, 2] : List ℕ)).1.progress
      = 0 + 3 :=
  (track_skipped_on_per_item_failure true (fun _ => HRes.ok) ⟨5, 0, 0⟩ [0, 1, 2]).1
    (by decide)

/-- C3 counterexample: with current batch size 2^54 + 2 and a recognized-transient failure
on a batch of exactly that length, the exponential shrink stores 2^53 — not half the old
size, which is 2^53 + 1: `int(batch_size / 2)` passes through a 53-bit double mantissa. -/
theorem shrink_half_value_cex :
    (failSafeExecute true (fun _ => HRes.exn true) ⟨2 ^ 54 + 2, 0, 0⟩
        (List.replicate (2 ^ 54 + 2) (0 : ℕ))).1.batch_size ≠ (2 ^ 54 + 2) / 2 := by
  rw [fse_transient_bs rfl]
  show shrinkSize true (2 ^ 54 + 2) (List.replicate (2 ^ 54 + 2) (0 : ℕ)).length
      ≠ (2 ^ 54 + 2) / 2
  rw [List.length_replicate]
  decide

/-- C3 (amended): when the handler raises a recognized transient error on a batch, the
batch size is shrunk iff the current size equals the length of the batch and exceeds 1; in
that case the new value is `int(old / 2)` under exponential backoff — equal to
⌊old / 2⌋ whenever old ≤ 2^53, though not in general — or old − 1 in linear mode, and is
strictly smaller; otherwise the size is left unchanged; and it never drops below 1. -/
theorem shrink_condition_characterization (e : Bool) (h : List ℕ → HRes) (σ : ExecState)
    (b : List ℕ) (hb : h b = HRes.exn true) (hσ : 1 ≤ σ.batch_size) :
    (σ.batch_size = b.length ∧ 1 < σ.batch_size →
      (failSafeExecute e h σ b).1.batch_size =
        (if e then pyHalfInt σ.batch_size else σ.batch_size - 1) ∧
      (failSafeExecute e h σ b).1.batch_size < σ.batch_size ∧
      (e = true → σ.batch_size ≤ 2 ^ 53 →
        (failSafeExecute e h σ b).1.batch_size = σ.batch_size / 2)) ∧
    (¬(σ.batch_size = b.length ∧ 1 < σ.batch_size) →
      (failSafeExecute e h σ b).1.batch_size = σ.batch_size) ∧
    1 ≤ (failSafeExecute e h σ b).1.batch_size := by
  rw [fse_transient_bs hb]
  refine ⟨?_, shrinkSize_eq_of_not, shrinkSize_pos hσ⟩
  rintro ⟨h1, h2⟩
  refine ⟨?_, shrinkSize_lt h1 h2, ?_⟩
  · unfold shrinkSize
    rw [if_pos ⟨h1, h2⟩]
  · intro he hle
    subst he
    unfold shrinkSize
    rw [if_pos ⟨h1, h2⟩]
    simpa using pyHalfInt_eq_half hle

/-- Witness for C3 (amended): a transient failure on a full batch of 4 with exponential
backoff shrinks the batch size to 2. -/
theorem shrink_condition_characterization_witness :
    (failSafeExecute true (fun _ => HRes.exn true) ⟨4, 0, 0⟩
      ([0, 1, 2, 3] : List ℕ)).1.batch_size = 2 := by
  have h := (shrink_condition_characterization true (fun _ => HRes.exn true) ⟨4, 0, 0⟩
    [0, 1, 2, 3] rfl (by decide)).1 (by exact ⟨by decide, by decide⟩)
  have h2 := h.2.2 rfl (by norm_num)
  simpa using h2

/-- C4: after a recognized transient error on a batch, the handler is re-invoked once per
item of that batch, in batch order, each item wrapped in its own singleton batch (the
trace of the unit is the whole batch followed by the per-item pass trace, and exactly the item
singletons when no item fails); the per-item invocations are not protected by the
transient-retry logic: whatever exception the per-item pass raises — recognized-transient
or not — propagates out of the processing unit, with no shrink beyond the single
pre-pass adjustment and no further retry. -/
theorem per_item_retry_unprotected (e : Bool) (h : List ℕ → HRes) (σ : ExecState)
    (b : List ℕ) (hb : h b = HRes.exn true) :
    (failSafeExecute e h σ b).2.1 = b :: (perItemPass h b).1 ∧
    ((∀ x ∈ b, h [x] = HRes.ok) →
      (failSafeExecute e h σ b).2.1 = b :: b.map (fun x => [x]) ∧
      (failSafeExecute e h σ b).2.2 = none) ∧
    (failSafeExecute e h σ b).2.2 = (perItemPass h b).2 ∧
    (failSafeExecute e h σ b).1.batch_size = shrinkSize e σ.batch_size b.length := by
  refine ⟨fse_transient_calls hb, ?_, fse_transient_err hb, fse_transient_bs hb⟩
  intro hall
  rw [fse_transient_calls hb, fse_transient_err hb, perItemPass_all_ok hall]
  exact ⟨rfl, rfl⟩

/-- Witness for C4: batch [0, 1, 2] fails transiently; the singleton retry of item 1
raises a recognized-transient error, which still propagates out of the unit. -/
theorem per_item_retry_unprotected_witness :
    (failSafeExecute false
      (fun b : List ℕ =>
        if b.length = 1 then (if b = [1] then HRes.exn true else HRes.ok)
        else HRes.exn true)
      ⟨3, 0, 0⟩ [0, 1, 2]).2.2 = some true := by
  have h := (per_item_retry_unprotected false
    (fun b : List ℕ =>
      if b.length = 1 then (if b = [1] then HRes.exn true else HRes.ok)
      else HRes.exn true)
    ⟨3, 0, 0⟩ [0, 1, 2] (by decide)).2.2.1
  rw [h]
  decide

/-- C5: when the handler raises an error outside the recognized transient set on a batch,
the processing unit propagates that error directly: the batch size is unchanged, no
per-item retry is attempted (the trace holds only the one batch invocation), and progress
is not advanced for that batch — only the debugging counter increment leaks; in the
scenario where the very first batch fails with an unrecognized error, `shutdown` surfaces
that error and total progress is 0. -/
theorem unrecognized_error_propagates_directly :
    (∀ (e : Bool) (h : List ℕ → HRes) (σ : ExecState) (b : List ℕ),
      h b = HRes.exn false →
      failSafeExecute e h σ b = ({ σ with counter := σ.counter + 1 }, [b], some false)) ∧
    ((execute true (fun _ => HRes.exn false) 4 (List.range 10)).2.2 = some false ∧
     (execute true (fun _ => HRes.exn false) 4 (List.range 10)).1.progress = 0) := by
  exact ⟨fun e h σ b hb => fse_fatal hb, by decide, by decide⟩

/-- Witness for C5 at a concrete two-item batch. -/
theorem unrecognized_error_propagates_directly_witness :
    failSafeExecute true (fun _ => HRes.exn false) ⟨4, 0, 0⟩ ([0, 1] : List ℕ)
      = (⟨4, 0, 1⟩, [[0, 1]], some false) := by
  have h := unrecognized_error_propagates_directly.1 true (fun _ => HRes.exn false)
    ⟨4, 0, 0⟩ [0, 1] rfl
  rw [h]
  decide

/-- C6: given a positive starting batch size, the batch-size field is always at least 1
and never increases: the shrink write — performed only when the length of the failing batch
equals the current size and that size exceeds 1 — produces a value that is ≥ 1 and
strictly smaller than the previous one, the field is otherwise left unchanged, every
single processing-unit execution can only lower it, and across a whole `execute` run it
stays within [1, starting size]. -/
theorem batch_size_invariant :
    (∀ (e : Bool) (bs len : ℕ), 1 ≤ bs →
      1 ≤ shrinkSize e bs len ∧ shrinkSize e bs len ≤ bs ∧
      (bs = len ∧ 1 < bs → shrinkSize e bs len < bs) ∧
      (¬(bs = len ∧ 1 < bs) → shrinkSize e bs len = bs)) ∧
    (∀ (e : Bool) (h : List ℕ → HRes) (σ : ExecState) (b : List ℕ), 1 ≤ σ.batch_size →
      1 ≤ (failSafeExecute e h σ b).1.batch_size ∧
      (failSafeExecute e h σ b).1.batch_size ≤ σ.batch_size) ∧
    (∀ (e : Bool) (h : List ℕ → HRes) (B : ℕ) (items : List ℕ), 1 ≤ B →
      1 ≤ (execute e h B items).1.batch_size ∧
      (execute e h B items).1.batch_size ≤ B) := by
  refine ⟨?_, ?_, ?_⟩
  · intro e bs len hbs
    exact ⟨shrinkSize_pos hbs, shrinkSize_le,
      fun hc => shrinkSize_lt hc.1 hc.2, shrinkSize_eq_of_not⟩
  · intro e h σ b hσ
    exact ⟨fse_bs_pos hσ, fse_bs_le⟩
  · intro e h B items hB
    exact executeAux_bs_bounds e h items.length ⟨B, 0, 0⟩ items hB

/-- Witness for C6: a run whose first batch fails transiently (shrinking 4 to 2) keeps
the batch size within [1, 4]. -/
theorem batch_size_invariant_witness :
    1 ≤ (execute true (fun _ => HRes.exn true) 4 (List.range 10)).1.batch_size ∧
    (execute true (fun _ => HRes.exn true) 4 (List.range 10)).1.batch_size ≤ 4 :=
  batch_size_invariant.2.2 true (fun _ => HRes.exn true) 4 (List.range 10) (by decide)

/-- C7 counterexample: at old batch size 2^53 + 3 the exponential shrink computes
`int((2^53 + 3) / 2)` = 4503599627370498, one more than ⌊(2^53 + 3) / 2⌋: exact floor
halving fails for sizes beyond the 53-bit double mantissa. -/
theorem exponential_halving_cex : pyHalfInt (2 ^ 53 + 3) ≠ (2 ^ 53 + 3) / 2 := by
  decide

/-- C7 (amended): the exponential-backoff shrink computes `int(s / 2)`, which equals
exactly ⌊s / 2⌋ for every old batch size 1 < s ≤ 2^53; beyond 2^53 the float rounding
can differ. -/
theorem exponential_halving_below_threshold (s : ℕ) (h1 : 1 < s) (h2 : s ≤ 2 ^ 53) :
    shrinkSize true s s = s / 2 ∧ pyHalfInt s = s / 2 := by
  have hh := pyHalfInt_eq_half h2
  refine ⟨?_, hh⟩
  unfold shrinkSize
  rw [if_pos ⟨rfl, h1⟩]
  simpa using hh

/-- Witness for C7 (amended) at old size 6. -/
theorem exponential_halving_below_threshold_witness :
    shrinkSize true 6 6 = 6 / 2 :=
  (exponential_halving_below_threshold 6 (by decide) (by norm_num)).1

/-- C8: during the per-item retry pass that follows a recognized transient batch failure,
if the handler raises on the item at position k, no item at a later position is invoked:
the full invocation trace of the unit is the whole batch followed by the singleton attempts
up to and including the first failing item, and the exception of the pass propagates. -/
theorem per_item_pass_stops_at_first_failure (e : Bool) (h : List ℕ → HRes)
    (σ : ExecState) (pre post : List ℕ) (bad : ℕ) (tr : Bool)
    (hb : h (pre ++ bad :: post) = HRes.exn true)
    (hpre : ∀ x ∈ pre, h [x] = HRes.ok) (hbad : h [bad] = HRes.exn tr) :
    (failSafeExecute e h σ (pre ++ bad :: post)).2.1 =
      (pre ++ bad :: post) :: (pre.map (fun x => [x]) ++ [[bad]]) ∧
    (failSafeExecute e h σ (pre ++ bad :: post)).2.2 = some tr := by
  rw [fse_transient_calls hb, fse_transient_err hb,
    perItemPass_first_fail pre bad post tr hpre hbad]
  exact ⟨rfl, rfl⟩

/-- Witness for C8: in batch [0, 1, 2, 3] the singleton retry of item 1 fails, so items 2
and 3 are never attempted. -/
theorem per_item_pass_stops_at_first_failure_witness :
    (failSafeExecute true
      (fun b : List ℕ =>
        if b = [0] then HRes.ok
        else if b.length = 1 then HRes.exn false else HRes.exn true)
      ⟨9, 0, 0⟩ [0, 1, 2, 3]).2.1 = [[0, 1, 2, 3], [0], [1]] ∧
    (failSafeExecute true
      (fun b : List ℕ =>
        if b = [0] then HRes.ok
        else if b.length = 1 then HRes.exn false else HRes.exn true)
      ⟨9, 0, 0⟩ [0, 1, 2, 3]).2.2 = some false :=
  per_item_pass_stops_at_first_failure true
    (fun b : List ℕ =>
      if b = [0] then HRes.ok
      else if b.length = 1 then HRes.exn false else HRes.exn true)
    ⟨9, 0, 0⟩ [0] [2, 3] 1 false (by decide) (by decide) (by decide)

/-- A value stored in the Python dicts handled by `EosActionMapper.action_to_dict`: only
string values are ever created or compared by the mapper (`action`, `NULL`); every
other value (nested lists, dicts, numbers) is carried around opaquely and is represented
by an indexed atom. -/
inductive PyVal where
  | str : String → PyVal
  | obj : ℕ → PyVal
deriving DecidableEq, Repr

/-- A Python dict with string keys, embedded as its ordered list of key/value bindings;
Python dict keys are unique, so a representable dict has at most one binding per key. -/
abbrev PyDict := List (String × PyVal)

/-- Python `d[k]` / `k in d`: the value bound to `k`, if any. -/
def dictGet : PyDict → String → Option PyVal
  | [], _ => none
  | (k', v) :: rest, k => if k' = k then some v else dictGet rest k

/-- Python `d.pop(k, None)`: remove the binding of `k`, tolerating its absence (on a
representable dict there is at most one matching binding). -/
def dictPop : PyDict → String → PyDict
  | [], _ => []
  | (k', v) :: rest, k => if k' = k then dictPop rest k else (k', v) :: dictPop rest k

/-- `EosActionMapper.action_to_dict` (lines 26–50 of `action_mapper.py`).  The `result`
dict literal is evaluated top to bottom, so the first missing required key raises
`KeyError` (embedded as `Except.error` carrying the key); `hex_data` is guarded by a
membership test and defaults to the string `NULL`.  On success the five `pop` calls
mutate `action`; the function is embedded as returning `result` together with the
post-call states of the two argument dicts (`transaction_dict` is never written, and the
debugging `print` of any remaining `action` fields does not affect the result). -/
def action_to_dict (action transaction_dict : PyDict) :
    Except String (PyDict × PyDict × PyDict) :=
  match dictGet transaction_dict "trx.hash" with
  | none => .error "trx.hash"
  | some trxHash =>
    match dictGet transaction_dict "block_hash" with
    | none => .error "block_hash"
    | some blockHash =>
      match dictGet action "account" with
      | none => .error "account"
      | some account =>
        match dictGet action "name" with
        | none => .error "name"
        | some name =>
          match dictGet action "authorization" with
          | none => .error "authorization"
          | some authorization =>
            match dictGet action "data" with
            | none => .error "data"
            | some data =>
              let hex_data := (dictGet action "hex_data").getD (PyVal.str "NULL")
              let result : PyDict :=
                [("type", PyVal.str "action"), ("transaction_hash", trxHash),
                 ("block_hash", blockHash), ("account", account), ("name", name),
                 ("authorization", authorization), ("data", data),
                 ("hex_data", hex_data)]
              let action' :=
                dictPop (dictPop (dictPop (dictPop (dictPop action "account") "name")
                  "authorization") "data") "hex_data"
              .ok (result, action', transaction_dict)

theorem dictGet_dictPop_self (d : PyDict) (k : String) : dictGet (dictPop d k) k = none := by
  induction d with
  | nil => rfl
  | cons p rest ih =>
    obtain ⟨k₀, v⟩ := p
    simp only [dictPop]
    by_cases h0 : k₀ = k
    · rw [if_pos h0]
      exact ih
    · rw [if_neg h0]
      simp only [dictGet]
      rw [if_neg h0]
      exact ih

theorem dictGet_dictPop_other (d : PyDict) (k k' : String) (hne : k ≠ k') :
    dictGet (dictPop d k') k = dictGet d k := by
  induction d with
  | nil => rfl
  | cons p rest ih =>
    obtain ⟨k₀, v⟩ := p
    simp only [dictPop, dictGet]
    by_cases h0 : k₀ = k'
    · rw [if_pos h0, ih, if_neg ?_]
      intro hh
      exact hne (hh ▸ h0)
    · rw [if_neg h0]
      simp only [dictGet]
      by_cases h1 : k₀ = k
      · rw [if_pos h1, if_pos h1]
      · rw [if_neg h1, if_neg h1, ih]

/-- C9: `action_to_dict` mutates its `action` argument — after a successful call the keys
`account`, `name`, `authorization`, `data` and `hex_data` are all absent from it (each
popped with a default, so their prior absence is tolerated) — while the `transaction_dict`
argument is returned unchanged. -/
theorem action_to_dict_mutates_action_only (action txn r a' t' : PyDict)
    (hk : action_to_dict action txn = Except.ok (r, a', t')) :
    dictGet a' "account" = none ∧ dictGet a' "name" = none ∧
    dictGet a' "authorization" = none ∧ dictGet a' "data" = none ∧
    dictGet a' "hex_data" = none ∧ t' = txn := by
  unfold action_to_dict at hk
  cases h1 : dictGet txn "trx.hash" with
  | none => rw [h1] at hk; exact absurd hk (by simp)
  | some v1 =>
  rw [h1] at hk
  cases h2 : dictGet txn "block_hash" with
  | none => rw [h2] at hk; exact absurd hk (by simp)
  | some v2 =>
  rw [h2] at hk
  cases h3 : dictGet action "account" with
  | none => rw [h3] at hk; exact absurd hk (by simp)
  | some v3 =>
  rw [h3] at hk
  cases h4 : dictGet action "name" with
  | none => rw [h4] at hk; exact absurd hk (by simp)
  | some v4 =>
  rw [h4] at hk
  cases h5 : dictGet action "authorization" with
  | none => rw [h5] at hk; exact absurd hk (by simp)
  | some v5 =>
  rw [h5] at hk
  cases h6 : dictGet action "data" with
  | none => rw [h6] at hk; exact absurd hk (by simp)
  | some v6 =>
  rw [h6] at hk
  simp only [Except.ok.injEq, Prod.mk.injEq] at hk
  obtain ⟨-, ha, ht⟩ := hk
  subst ha
  subst ht
  refine ⟨?_, ?_, ?_, ?_, ?_, rfl⟩
  · rw [dictGet_dictPop_other _ _ _ (by decide), dictGet_dictPop_other _ _ _ (by decide),
      dictGet_dictPop_other _ _ _ (by decide), dictGet_dictPop_other _ _ _ (by decide),
      dictGet_dictPop_self]
  · rw [dictGet_dictPop_other _ _ _ (by decide), dictGet_dictPop_other _ _ _ (by decide),
      dictGet_dictPop_other _ _ _ (by decide), dictGet_dictPop_self]
  · rw [dictGet_dictPop_other _ _ _ (by decide), dictGet_dictPop_other _ _ _ (by decide),
      dictGet_dictPop_self]
  · rw [dictGet_dictPop_other _ _ _ (by decide), dictGet_dictPop_self]
  · rw [dictGet_dictPop_self]

/-- Witness for C9 on a concrete action (with a leftover field and no `hex_data` key) and
transaction dict. -/
theorem action_to_dict_mutates_action_only_witness :
    dictGet [("extra", PyVal.obj 3)] "account" = none ∧
    dictGet [("extra", PyVal.obj 3)] "name" = none ∧
    dictGet [("extra", PyVal.obj 3)] "authorization" = none ∧
    dictGet [("extra", PyVal.obj 3)] "data" = none ∧
    dictGet [("extra", PyVal.obj 3)] "hex_data" = none ∧
    ([("trx.hash", PyVal.str "h"), ("block_hash", PyVal.str "b")] : PyDict)
      = [("trx.hash", PyVal.str "h"), ("block_hash", PyVal.str "b")] :=
  action_to_dict_mutates_action_only
    [("account", PyVal.obj 0), ("name", PyVal.str "transfer"),
     ("authorization", PyVal.obj 1), ("data", PyVal.obj 2), ("extra", PyVal.obj 3)]
    [("trx.hash", PyVal.str "h"), ("block_hash", PyVal.str "b")]
    [("type", PyVal.str "action"), ("transaction_hash", PyVal.str "h"),
     ("block_hash", PyVal.str "b"), ("account", PyVal.obj 0),
     ("name", PyVal.str "transfer"), ("authorization", PyVal.obj 1),
     ("data", PyVal.obj 2), ("hex_data", PyVal.str "NULL")]
    [("extra", PyVal.obj 3)]
    [("trx.hash", PyVal.str "h"), ("block_hash", PyVal.str "b")]
    (by rfl)

/-- C10: for every action containing `account`, `name`, `authorization` and `data` and
every transaction dict containing `trx.hash` and `block_hash`, `action_to_dict` returns a
dict with exactly the eight keys type, transaction_hash, block_hash, account, name,
authorization, data, hex_data — where type is the string `action` and hex_data is the
value of the `hex_data` key of the action when present and the string `NULL` otherwise;
and whenever any
of those required keys is absent, the call raises a `KeyError` instead. -/
theorem action_to_dict_result_shape :
    (∀ (action txn : PyDict) (th bh av nv uv dv : PyVal),
      dictGet txn "trx.hash" = some th → dictGet txn "block_hash" = some bh →
      dictGet action "account" = some av → dictGet action "name" = some nv →
      dictGet action "authorization" = some uv → dictGet action "data" = some dv →
      ∃ a', action_to_dict action txn = Except.ok
        ([("type", PyVal.str "action"), ("transaction_hash", th), ("block_hash", bh),
          ("account", av), ("name", nv), ("authorization", uv), ("data", dv),
          ("hex_data", (dictGet action "hex_data").getD (PyVal.str "NULL"))], a', txn)) ∧
    (∀ (action txn : PyDict),
      (dictGet txn "trx.hash" = none ∨ dictGet txn "block_hash" = none ∨
       dictGet action "account" = none ∨ dictGet action "name" = none ∨
       dictGet action "authorization" = none ∨ dictGet action "data" = none) →
      ∃ k, action_to_dict action txn = Except.error k) := by
  constructor
  · intro action txn th bh av nv uv dv g1 g2 g3 g4 g5 g6
    unfold action_to_dict
    rw [g1, g2, g3, g4, g5, g6]
    exact ⟨_, rfl⟩
  · intro action txn hd
    unfold action_to_dict
    cases h1 : dictGet txn "trx.hash" with
    | none => exact ⟨"trx.hash", rfl⟩
    | some v1 =>
    cases h2 : dictGet txn "block_hash" with
    | none => exact ⟨"block_hash", rfl⟩
    | some v2 =>
    cases h3 : dictGet action "account" with
    | none => exact ⟨"account", rfl⟩
    | some v3 =>
    cases h4 : dictGet action "name" with
    | none => exact ⟨"name", rfl⟩
    | some v4 =>
    cases h5 : dictGet action "authorization" with
    | none => exact ⟨"authorization", rfl⟩
    | some v5 =>
    cases h6 : dictGet action "data" with
    | none => exact ⟨"data", rfl⟩
    | some v6 =>
    simp_all

/-- Witness for C10: the success branch on a concrete action carrying `hex_data` and a
leftover field. -/
theorem action_to_dict_result_shape_witness :
    ∃ a', action_to_dict
      [("account", PyVal.obj 0), ("name", PyVal.str "transfer"),
       ("authorization", PyVal.obj 1), ("data", PyVal.obj 2),
       ("hex_data", PyVal.str "00ab"), ("extra", PyVal.obj 3)]
      [("trx.hash", PyVal.str "h"), ("block_hash", PyVal.str "b")] = Except.ok
      ([("type", PyVal.str "action"), ("transaction_hash", PyVal.str "h"),
        ("block_hash", PyVal.str "b"), ("account", PyVal.obj 0),
        ("name", PyVal.str "transfer"), ("authorization", PyVal.obj 1),
        ("data", PyVal.obj 2),
        ("hex_data", (dictGet
          [("account", PyVal.obj 0), ("name", PyVal.str "transfer"),
           ("authorization", PyVal.obj 1), ("data", PyVal.obj 2),
           ("hex_data", PyVal.str "00ab"), ("extra", PyVal.obj 3)]
          "hex_data").getD (PyVal.str "NULL"))],
       a',
       [("trx.hash", PyVal.str "h"), ("block_hash", PyVal.str "b")]) :=
  action_to_dict_result_shape.1
    [("account", PyVal.obj 0), ("name", PyVal.str "transfer"),
     ("authorization", PyVal.obj 1), ("data", PyVal.obj 2),
     ("hex_data", PyVal.str "00ab"), ("extra", PyVal.obj 3)]
    [("trx.hash", PyVal.str "h"), ("block_hash", PyVal.str "b")]
    (PyVal.str "h") (PyVal.str "b") (PyVal.obj 0) (PyVal.str "transfer")
    (PyVal.obj 1) (PyVal.obj 2)
    (by decide) (by decide) (by decide) (by decide) (by decide) (by decide)
